import Mathlib

/-!
Shallow embedding of svn2git.py (wadcom/svn2git).

Python strings are modelled as `List Char` (sequences of code points).
Python functions that can raise are modelled with `Except`; the concrete
exception kinds that matter to the claims are distinguished by dedicated
error types.  Stateful interaction with the converted git repository is
modelled by an explicit `GitRepo` record of short ref names per namespace,
with each git invocation an explicit state transition that can fail the
way `subprocess.check_call` does on a non-zero exit.
-/

/-- Coerce a Lean string literal to the `List Char` model of Python strings. -/
def toL (s : String) : List Char := s.data

/-- Model of `os.path.basename` on POSIX paths: the text after the last slash. -/
def basename (l : List Char) : List Char :=
  l.foldl (fun acc c => if c = '/' then [] else acc ++ [c]) []

/-- Model of Python `str.split(sep)` for a one-character separator:
splits on every occurrence, the empty string yields one empty field. -/
def pySplitOn (sep : Char) : List Char → List (List Char)
  | [] => [[]]
  | c :: rest =>
      if c = sep then [] :: pySplitOn sep rest
      else
        match pySplitOn sep rest with
        | [] => [[c]]
        | s :: ss => (c :: s) :: ss

/-- Model of `come_up_with_repo_name` (svn2git.py lines 24-28): raises `ValueError`
on the empty string, otherwise returns `os.path.basename(fname).split('.')[0]`. -/
def come_up_with_repo_name (l : List Char) : Except Unit (List Char) :=
  if l = [] then Except.error ()
  else Except.ok ((pySplitOn '.' (basename l)).headD [])

/-- The opening author marker checked by `parse_author`. -/
def authorTag : List Char := toL "<author>"

/-- The two `ValueError`s `parse_author` can raise: the explicit
`Not an <author> element` (the FormatError of the spec), and the
`substring not found` raised by `str.index`. -/
inductive AuthorErr where
  | notAuthorElement : AuthorErr
  | substringNotFound : AuthorErr
deriving DecidableEq

/-- Model of Python `str.index(c)`: position of the first occurrence,
`ValueError` when absent. -/
def pyIndexOf (c : Char) : List Char → Except Unit Nat
  | [] => Except.error ()
  | x :: rest => if x = c then Except.ok 0 else (pyIndexOf c rest).map (· + 1)

/-- Model of `parse_author` (svn2git.py lines 76-83): requires the `<author>` marker
as a prefix, then takes the text up to the next `<` found by `str.index`. -/
def parse_author (l : List Char) : Except AuthorErr (List Char) :=
  if authorTag.isPrefixOf l then
    match pyIndexOf '<' (l.drop authorTag.length) with
    | Except.ok n => Except.ok ((l.drop authorTag.length).take n)
    | Except.error _ => Except.error AuthorErr.substringNotFound
  else Except.error AuthorErr.notAuthorElement

/-- Lexicographic (code-point) order on the string model, the order Python
`sorted` uses on `str`. -/
def lexLe : List Char → List Char → Bool
  | [], _ => true
  | _ :: _, [] => false
  | a :: as, b :: bs => if a < b then true else if b < a then false else lexLe as bs

/-- Insert into a `lexLe`-sorted list, keeping it sorted. -/
def insertSorted (x : List Char) : List (List Char) → List (List Char)
  | [] => [x]
  | y :: ys => if lexLe x y then x :: y :: ys else y :: insertSorted x ys

/-- Ascending insertion sort over the string model: the model of Python
`sorted` on a list of strings. -/
def sortStrings (l : List (List Char)) : List (List Char) :=
  l.foldr insertSorted []

/-- Boolean sortedness predicate for `lexLe`. -/
def sortedLe : List (List Char) → Bool
  | [] => true
  | [_] => true
  | x :: y :: r => lexLe x y && sortedLe (y :: r)

/-- Keep one copy of each element (the set underlying a list); together with
`sortStrings` this models Python `sorted(list(set(xs)))`. -/
def distinctKeepLast : List (List Char) → List (List Char)
  | [] => []
  | x :: xs => if x ∈ xs then distinctKeepLast xs else x :: distinctKeepLast xs

/-- Model of `parse_svn_log_authors` (svn2git.py lines 96-98): split on newlines,
apply `parse_author` to the lines starting with the marker (the first
exception propagates), and return the sorted list of the distinct results. -/
def parse_svn_log_authors (l : List Char) : Except AuthorErr (List (List Char)) :=
  match ((pySplitOn '\n' l).filter (fun s => authorTag.isPrefixOf s)).mapM parse_author with
  | Except.error e => Except.error e
  | Except.ok as => Except.ok (sortStrings (distinctKeepLast as))

/-- Matches of the regex pattern bracket-dot-bracket as found by Python
`re.findall` (svn2git.py line 157): a left-to-right scan; at a position where
`[`, a non-newline character and `]` follow, the three matched characters are
recorded and the scan resumes past them, otherwise it advances one position. -/
def reFindallBrk : List Char → List (List Char)
  | a :: b :: c :: r =>
      if a = '[' ∧ b ≠ '\n' ∧ c = ']' then [a, b, c] :: reFindallBrk r
      else reFindallBrk (b :: c :: r)
  | _ :: rest => reFindallBrk rest
  | [] => []

/-- Model of `extract_keys_from_prompt` (svn2git.py lines 155-161): `ValueError`
when the regex finds nothing, otherwise the join of `m[1]` over the matches. -/
def extract_keys_from_prompt (l : List Char) : Except Unit (List Char) :=
  if reFindallBrk l = [] then Except.error ()
  else Except.ok (((reFindallBrk l).map (fun m => (m.drop 1).take 1)).foldr (· ++ ·) [])

/-- The single enclosed characters the non-overlapping scan emits, written
directly (used to state what the rewrite of the matches joins up to). -/
def scanKeys : List Char → List Char
  | a :: b :: c :: r =>
      if a = '[' ∧ b ≠ '\n' ∧ c = ']' then b :: scanKeys r
      else scanKeys (b :: c :: r)
  | _ :: rest => scanKeys rest
  | [] => []

/-- Every character standing between a `[` and a `]` two positions later,
with no restriction: the literal reading of the claim that every single
character enclosed in brackets is collected. -/
def allEnclosed : List Char → List Char
  | a :: b :: c :: r =>
      (if a = '[' ∧ c = ']' then [b] else []) ++ allEnclosed (b :: c :: r)
  | _ => []

/-- Model of Python `str.lower` (ASCII case folding). -/
def pyLower (l : List Char) : List Char := l.map Char.toLower

/-- Model of Python `str.strip()`: drop leading and trailing whitespace. -/
def pyStrip (l : List Char) : List Char :=
  ((l.dropWhile Char.isWhitespace).reverse.dropWhile Char.isWhitespace).reverse

/-- The acceptance test of `prompt_menu` on an already lower-cased input
line: length exactly one and membership in the lower-cased key string. -/
def acceptB (choices inp : List Char) : Bool :=
  match inp with
  | [c] => choices.contains c
  | _ => false

/-- The acceptance test the claim describes: the input is first trimmed,
then lower-cased, then tested for being a single valid key. -/
def claimAccepts (ks i : List Char) : Bool :=
  acceptB (pyLower ks) (pyLower (pyStrip i))

/-- The `while True` loop of `prompt_menu`, run against an explicit list of
operator input lines; `none` models the loop still waiting (no line of the
list was accepted). -/
def promptLoop (choices : List Char) : List (List Char) → Option (List Char)
  | [] => none
  | i :: rest =>
      if acceptB choices (pyLower i) then some (pyLower i) else promptLoop choices rest

/-- Model of `prompt_menu` (svn2git.py lines 174-180): derive the valid keys from the
prompt (propagating its `ValueError`), lower-case them, then loop over the
operator's input lines. -/
def prompt_menu (p : List Char) (inputs : List (List Char)) :
    Except Unit (Option (List Char)) :=
  match extract_keys_from_prompt p with
  | Except.error e => Except.error e
  | Except.ok ks => Except.ok (promptLoop (pyLower ks) inputs)

/-- The literal prefix `fix_tag_name` strips. -/
def tagsNS : List Char := toL "tags/"

/-- Model of `fix_tag_name` (svn2git.py lines 274-279): strip one leading `tags/`. -/
def fix_tag_name (tag : List Char) : List Char :=
  if tagsNS.isPrefixOf tag then tag.drop tagsNS.length else tag

/-- The converted repository's ref store: short names held under
`refs/heads/`, `refs/remotes/` and `refs/tags/`. -/
structure GitRepo where
  heads : List (List Char)
  remotes : List (List Char)
  tags : List (List Char)
deriving DecidableEq

/-- Failures of the git invocations `GitRepo` makes: `subprocess.check_call`
raises on any non-zero exit, in particular when `git branch -D [-r]` is
given a ref that does not exist. -/
inductive GitError where
  | branchCreateFailed : GitError
  | tagCreateFailed : GitError
  | deleteMissingBranch : List Char → GitError
  | deleteMissingRemote : List Char → GitError
deriving DecidableEq

/-- The full-name form `main` passes to `git branch` for remote refs. -/
def refsRemotesPre : List Char := toL "refs/remotes/"

/-- Whether a name given as a branch/tag starting point resolves in the
store: a short name in any namespace, or a full `refs/remotes/` name. -/
def GitRepo.resolves (s : GitRepo) (what : List Char) : Bool :=
  s.tags.contains what || s.heads.contains what || s.remotes.contains what ||
    (refsRemotesPre.isPrefixOf what && s.remotes.contains (what.drop refsRemotesPre.length))

/-- Model of `GitRepo.branch` (svn2git.py lines 230-231): `git branch name what`,
failing when the start point does not resolve or the branch exists. -/
def GitRepo.branch (s : GitRepo) (nm what : List Char) : Except GitError GitRepo :=
  if s.resolves what && !(s.heads.contains nm) then
    Except.ok { s with heads := s.heads ++ [nm] }
  else Except.error GitError.branchCreateFailed

/-- Model of `GitRepo.tag` (svn2git.py lines 244-245): `git tag name what`,
failing when the start point does not resolve or the tag exists. -/
def GitRepo.tag (s : GitRepo) (nm what : List Char) : Except GitError GitRepo :=
  if s.resolves what && !(s.tags.contains nm) then
    Except.ok { s with tags := s.tags ++ [nm] }
  else Except.error GitError.tagCreateFailed

/-- Model of `GitRepo.delete_branch` (svn2git.py lines 233-235): `git branch -D`
with `-r` when `remote`; git errors out when the named ref is absent from
the targeted namespace, and `check_call` turns that into an exception. -/
def GitRepo.delete_branch (s : GitRepo) (b : List Char) (remote : Bool) :
    Except GitError GitRepo :=
  if remote then
    if s.remotes.contains b then Except.ok { s with remotes := s.remotes.erase b }
    else Except.error (GitError.deleteMissingRemote b)
  else
    if s.heads.contains b then Except.ok { s with heads := s.heads.erase b }
    else Except.error (GitError.deleteMissingBranch b)

/-- Model of `get_short_refs` on pattern `refs/remotes/tags`: the remote-tracking refs under
the `tags` sub-namespace, short names, in `git for-each-ref` sorted order. -/
def GitRepo.get_short_refs_tags (s : GitRepo) : List (List Char) :=
  sortStrings (s.remotes.filter (fun r => tagsNS.isPrefixOf r || r == toL "tags"))

/-- Model of `get_short_refs` on pattern `refs/remotes`: all remote-tracking refs, sorted. -/
def GitRepo.get_short_refs_remotes (s : GitRepo) : List (List Char) :=
  sortStrings s.remotes

/-- Model of `get_short_refs` with no pattern: every ref, sorted by full ref name,
so local heads before remotes before tags. -/
def GitRepo.get_short_refs_all (s : GitRepo) : List (List Char) :=
  sortStrings s.heads ++ sortStrings s.remotes ++ sortStrings s.tags

/-- Pass 1 of `main` (svn2git.py lines 305-307): for each remote ref under
`tags`, create the tag named by `fix_tag_name` and delete the remote ref. -/
def tagPass (s : GitRepo) : Except GitError GitRepo :=
  (s.get_short_refs_tags).foldlM
    (fun st t => do
      let st2 ← st.tag (fix_tag_name t) t
      st2.delete_branch t true) s

/-- Pass 2 of `main` (svn2git.py lines 309-311): for each remaining remote
ref, create the like-named local branch and delete the remote ref. -/
def branchPass (s : GitRepo) : Except GitError GitRepo :=
  (s.get_short_refs_remotes).foldlM
    (fun st b => do
      let st2 ← st.branch b (refsRemotesPre ++ b)
      st2.delete_branch b true) s

/-- Pass 3 of `main` (svn2git.py lines 313-315): for each ref anywhere whose
short name contains an `@`, delete it as a remote-tracking ref. -/
def anomalyPass (s : GitRepo) : Except GitError GitRepo :=
  (s.get_short_refs_all).foldlM
    (fun st b => if b.contains '@' then st.delete_branch b true else pure st) s

/-- The ref-rewrite portion of `main` (svn2git.py lines 305-317): the three
passes in order, then the deletion of the local `trunk` branch. -/
def mainRefRewrite (s : GitRepo) : Except GitError GitRepo := do
  let s1 ← tagPass s
  let s2 ← branchPass s1
  let s3 ← anomalyPass s2
  s3.delete_branch (toL "trunk") false

/-- The converted repository of the end-to-end scenario: remote-tracking
refs exactly `tags/v1`, `release-branch` and `release-branch@12345`, and
nothing else. -/
def scenarioRepo : GitRepo :=
  { heads := [],
    remotes := [toL "release-branch", toL "release-branch@12345", toL "tags/v1"],
    tags := [] }

/-! Helper lemmas. -/

theorem split_headD (sep : Char) (l : List Char) :
    (pySplitOn sep l).headD [] = l.takeWhile (fun x => x ≠ sep) := by
  induction l with
  | nil => rfl
  | cons c rest ih =>
    by_cases h : c = sep
    · subst h
      rw [List.takeWhile_cons_of_neg (by simp)]
      simp [pySplitOn]
    · simp only [pySplitOn, if_neg h]
      rw [List.takeWhile_cons_of_pos (by simp [h])]
      cases hs : pySplitOn sep rest with
      | nil =>
        rw [hs] at ih
        simp only [List.headD_nil] at ih
        rw [← ih]
        rfl
      | cons s ss =>
        rw [hs] at ih
        simp only [List.headD_cons] at ih
        rw [← ih]
        rfl

theorem pyIndexOf_take (c : Char) (v : List Char) (h : c ∈ v) :
    ∃ n, pyIndexOf c v = Except.ok n ∧ v.take n = v.takeWhile (fun x => x ≠ c) := by
  induction v with
  | nil => cases h
  | cons x rest ih =>
    by_cases hx : x = c
    · exact ⟨0, by simp [pyIndexOf, hx], by simp [List.takeWhile_cons, hx]⟩
    · have hmem : c ∈ rest := by
        rcases List.mem_cons.mp h with he | hm
        · exact absurd he.symm hx
        · exact hm
      obtain ⟨n, h1, h2⟩ := ih hmem
      refine ⟨n + 1, by simp [pyIndexOf, hx, h1, Except.map], ?_⟩
      simp [List.takeWhile_cons, hx, List.take_succ_cons, h2]

theorem pyIndexOf_error (c : Char) (v : List Char) (h : c ∉ v) :
    pyIndexOf c v = Except.error () := by
  induction v with
  | nil => rfl
  | cons x rest ih =>
    have hx : ¬ x = c := fun e => h (e ▸ List.mem_cons_self x rest)
    have hr : c ∉ rest := fun m => h (List.mem_cons_of_mem _ m)
    simp [pyIndexOf, hx, ih hr, Except.map]

/-! Claim theorems. -/

/-- Claim C2: the rewriter does not pre-check for existence nor tolerate an
absent ref: deleting a ref that is not in the targeted namespace fails
(models the non-zero exit of `git branch -D [-r]` on a missing ref, which
`check_call` turns into an exception). -/
theorem delete_branch_errors_on_absent :
    ∀ (s : GitRepo) (b : List Char),
      (s.remotes.contains b = false →
        s.delete_branch b true = Except.error (GitError.deleteMissingRemote b))
      ∧ (s.heads.contains b = false →
        s.delete_branch b false = Except.error (GitError.deleteMissingBranch b)) := by
  intro s b
  constructor <;> intro h
  · have h' : b ∉ s.remotes := by simpa [List.contains] using h
    simp [GitRepo.delete_branch, h']
  · have h' : b ∉ s.heads := by simpa [List.contains] using h
    simp [GitRepo.delete_branch, h']

/-- Witness for C2 at a concrete store lacking the targeted refs. -/
theorem delete_branch_errors_on_absent_witness :
    GitRepo.delete_branch ⟨[], [], []⟩ (toL "release-branch@12345") true
      = Except.error (GitError.deleteMissingRemote (toL "release-branch@12345")) :=
  (delete_branch_errors_on_absent ⟨[], [], []⟩ (toL "release-branch@12345")).1 (by decide)

/-- Claim C1: on the scenario repository the rewrite does not terminate
successfully: the tag and branch passes go through (leaving tag `v1` and the
two local branches), but the anomaly pass deletes the `@` ref with the
remote flag after its remote-tracking original is already gone, so the
whole rewrite aborts with that delete's failure. -/
theorem scenario_rewrite_aborts :
    mainRefRewrite scenarioRepo
        = Except.error (GitError.deleteMissingRemote (toL "release-branch@12345"))
      ∧ (tagPass scenarioRepo >>= branchPass)
        = Except.ok ⟨[toL "release-branch", toL "release-branch@12345"], [], [toL "v1"]⟩ :=
  ⟨rfl, rfl⟩

/-- Claim C3 counterexample: `fix_tag_name` is not idempotent, at the
concrete name `tags/tags/v1` the second application strips again. -/
theorem fix_tag_name_not_idempotent :
    fix_tag_name (fix_tag_name (toL "tags/tags/v1")) ≠ fix_tag_name (toL "tags/tags/v1") := by
  decide

/-- Claim C3 (amended): the tag-prefix strip is idempotent on every name
that does not begin with a doubled `tags/tags/`; in particular a name with
no `tags/` at all is returned unchanged. -/
theorem fix_tag_name_idempotent :
    ∀ t : List Char, (toL "tags/tags/").isPrefixOf t = false →
      fix_tag_name (fix_tag_name t) = fix_tag_name t := by
  intro t h
  by_cases h1 : tagsNS.isPrefixOf t = true
  · obtain ⟨r, hr⟩ := List.isPrefixOf_iff_prefix.mp h1
    have hdrop : t.drop tagsNS.length = r := by
      rw [← hr]; exact List.drop_left tagsNS r
    have hnr : tagsNS.isPrefixOf r = false := by
      rcases Bool.eq_false_or_eq_true (tagsNS.isPrefixOf r) with ht | hf
      · exfalso
        obtain ⟨r2, hr2⟩ := List.isPrefixOf_iff_prefix.mp ht
        have hdt : (toL "tags/tags/").isPrefixOf t = true := by
          rw [List.isPrefixOf_iff_prefix]
          refine ⟨r2, ?_⟩
          have h2 : toL "tags/tags/" = tagsNS ++ tagsNS := by decide
          rw [h2, List.append_assoc, hr2, hr]
        rw [hdt] at h; cases h
      · exact hf
    simp [fix_tag_name, h1, hdrop, hnr]
  · simp [fix_tag_name, h1]

/-- Witness for the amended C3 at the already-stripped name `tags/v1`. -/
theorem fix_tag_name_idempotent_witness :
    fix_tag_name (fix_tag_name (toL "tags/v1")) = fix_tag_name (toL "tags/v1") :=
  fix_tag_name_idempotent (toL "tags/v1") (by decide)

/-- Claim C4: when the line begins with the `<author>` marker and a further
`<` follows, `parse_author` returns the text strictly between the marker and
that next `<`; when the marker is absent it fails with the FormatError
(`Not an author element` ValueError), in particular on the empty string. -/
theorem parse_author_contract :
    (∀ l : List Char, authorTag.isPrefixOf l = true → '<' ∈ l.drop authorTag.length →
        parse_author l = Except.ok ((l.drop authorTag.length).takeWhile (fun x => x ≠ '<')))
    ∧ (∀ l : List Char, authorTag.isPrefixOf l = false →
        parse_author l = Except.error AuthorErr.notAuthorElement)
    ∧ parse_author [] = Except.error AuthorErr.notAuthorElement := by
  refine ⟨?_, ?_, rfl⟩
  · intro l hpre hmem
    obtain ⟨n, h1, h2⟩ := pyIndexOf_take '<' _ hmem
    simp [parse_author, hpre, h1, h2]
  · intro l hpre
    simp [parse_author, hpre]

/-- Witness for C4 at the spec's own example line. -/
theorem parse_author_contract_witness :
    parse_author (toL "<author>me</author>") = Except.ok (toL "me") := by
  have h := parse_author_contract.1 (toL "<author>me</author>") (by decide) (by decide)
  exact h.trans (congrArg Except.ok (by decide))

/-- Claim C10: a line that begins with the `<author>` marker but has no
further `<` makes `parse_author` raise (the `substring not found`
ValueError of `str.index`) instead of returning a value. -/
theorem parse_author_no_close_raises :
    ∀ l : List Char, authorTag.isPrefixOf l = true → '<' ∉ l.drop authorTag.length →
      parse_author l = Except.error AuthorErr.substringNotFound := by
  intro l hpre hnm
  simp [parse_author, hpre, pyIndexOf_error '<' _ hnm]

/-- Witness for C10 at the concrete line of the claim. -/
theorem parse_author_no_close_raises_witness :
    parse_author (toL "<author>me") = Except.error AuthorErr.substringNotFound :=
  parse_author_no_close_raises (toL "<author>me") (by decide) (by decide)

/-- Claim C8: on every non-empty path the derived repository name is the
text of the path's base name that precedes its first dot, and the empty
path fails with ValueError. -/
theorem come_up_with_repo_name_spec :
    (∀ l : List Char, l ≠ [] →
        come_up_with_repo_name l = Except.ok ((basename l).takeWhile (fun x => x ≠ '.')))
    ∧ come_up_with_repo_name [] = Except.error () := by
  refine ⟨?_, rfl⟩
  intro l hl
  simp only [come_up_with_repo_name, if_neg hl]
  exact congrArg Except.ok (split_headD '.' (basename l))

/-- Witness for C8 at a concrete path with directories and extensions. -/
theorem come_up_with_repo_name_spec_witness :
    come_up_with_repo_name (toL "/tmp/some.dump.gz") = Except.ok (toL "some") := by
  have h := come_up_with_repo_name_spec.1 (toL "/tmp/some.dump.gz") (by decide)
  exact h.trans (congrArg Except.ok (by decide))

/-- Claim C9 counterexample: the non-empty path `.gz` is accepted and
yields the empty repository name. -/
theorem repo_name_empty_cex :
    toL ".gz" ≠ [] ∧ come_up_with_repo_name (toL ".gz") = Except.ok [] :=
  ⟨by decide, rfl⟩

/-- Claim C9 (amended): the derived name is non-empty for every path whose
base name starts with a character other than `.` (so in particular the base
name is non-empty). -/
theorem repo_name_nonempty :
    ∀ (l : List Char) (c : Char) (r : List Char), basename l = c :: r → c ≠ '.' →
      ∃ nm, come_up_with_repo_name l = Except.ok nm ∧ nm ≠ [] := by
  intro l c r hb hc
  have hl : l ≠ [] := by
    intro e
    rw [e] at hb
    exact (List.cons_ne_nil c r) hb.symm
  have hname : come_up_with_repo_name l
      = Except.ok ((basename l).takeWhile (fun x => x ≠ '.')) := by
    simp only [come_up_with_repo_name, if_neg hl]
    exact congrArg Except.ok (split_headD '.' (basename l))
  rw [hb] at hname
  refine ⟨_, hname, ?_⟩
  simp [List.takeWhile_cons, hc]

/-- Witness for the amended C9 at a concrete dump-file name. -/
theorem repo_name_nonempty_witness :
    ∃ nm, come_up_with_repo_name (toL "some.dump.gz") = Except.ok nm ∧ nm ≠ [] :=
  repo_name_nonempty (toL "some.dump.gz") 's' (toL "ome.dump.gz") (by decide) (by decide)

theorem lexLe_total : ∀ a b : List Char, lexLe a b = true ∨ lexLe b a = true := by
  intro a
  induction a with
  | nil => intro b; left; rfl
  | cons x xs ih =>
    intro b
    cases b with
    | nil => right; rfl
    | cons y ys =>
      rcases lt_trichotomy x y with h | h | h
      · left; simp [lexLe, h]
      · subst h
        rcases ih ys with h2 | h2
        · left; simp only [lexLe, if_neg (lt_irrefl x)]; exact h2
        · right; simp only [lexLe, if_neg (lt_irrefl x)]; exact h2
      · right; simp [lexLe, h]

theorem mem_insertSorted (a x : List Char) (l : List (List Char)) :
    a ∈ insertSorted x l ↔ a = x ∨ a ∈ l := by
  induction l with
  | nil => simp [insertSorted]
  | cons y ys ih =>
    by_cases h : lexLe x y = true
    · simp only [insertSorted, if_pos h, List.mem_cons]
    · simp only [insertSorted, if_neg h, List.mem_cons, ih]
      tauto

theorem nodup_insertSorted (x : List Char) (l : List (List Char))
    (hx : x ∉ l) (hl : l.Nodup) : (insertSorted x l).Nodup := by
  induction l with
  | nil => simp [insertSorted]
  | cons y ys ih =>
    rcases List.nodup_cons.mp hl with ⟨hyys, hys⟩
    have hxy : x ≠ y := fun e => hx (e ▸ List.mem_cons_self y ys)
    have hxys : x ∉ ys := fun m => hx (List.mem_cons_of_mem _ m)
    by_cases h : lexLe x y = true
    · simp only [insertSorted, if_pos h]
      exact List.nodup_cons.mpr ⟨by simp [hxy, hxys], hl⟩
    · simp only [insertSorted, if_neg h]
      refine List.nodup_cons.mpr ⟨?_, ih hxys hys⟩
      intro hmem
      rcases (mem_insertSorted y x ys).mp hmem with he | hm
      · exact hxy he.symm
      · exact hyys hm

theorem sortedLe_insertSorted (x : List Char) (l : List (List Char))
    (h : sortedLe l = true) : sortedLe (insertSorted x l) = true := by
  induction l with
  | nil => rfl
  | cons y ys ih =>
    by_cases hxy : lexLe x y = true
    · simp only [insertSorted, if_pos hxy]
      simp [sortedLe, hxy, h]
    · have hyx : lexLe y x = true := by
        rcases lexLe_total x y with h1 | h1
        · exact absurd h1 hxy
        · exact h1
      simp only [insertSorted, if_neg hxy]
      cases ys with
      | nil => simp [insertSorted, sortedLe, hyx]
      | cons z zs =>
        have hyz : lexLe y z = true := by
          simp [sortedLe] at h
          exact h.1
        have hsz : sortedLe (z :: zs) = true := by
          simp [sortedLe] at h
          exact h.2
        by_cases hxz : lexLe x z = true
        · simp only [insertSorted, if_pos hxz]
          simp [sortedLe, hyx, hxz, hsz]
        · have ihz := ih hsz
          simp only [insertSorted, if_neg hxz] at ihz
          simp only [insertSorted, if_neg hxz]
          simp only [sortedLe, hyz, Bool.true_and]
          exact ihz

theorem mem_sortStrings (a : List Char) (l : List (List Char)) :
    a ∈ sortStrings l ↔ a ∈ l := by
  induction l with
  | nil => simp [sortStrings]
  | cons x xs ih =>
    simp only [sortStrings, List.foldr_cons] at *
    rw [mem_insertSorted]
    simp [ih]

theorem sortedLe_sortStrings (l : List (List Char)) : sortedLe (sortStrings l) = true := by
  induction l with
  | nil => rfl
  | cons x xs ih =>
    simp only [sortStrings, List.foldr_cons] at *
    exact sortedLe_insertSorted x _ ih

theorem nodup_sortStrings (l : List (List Char)) (h : l.Nodup) : (sortStrings l).Nodup := by
  induction l with
  | nil => simp [sortStrings]
  | cons x xs ih =>
    rcases List.nodup_cons.mp h with ⟨hx, hxs⟩
    simp only [sortStrings, List.foldr_cons] at *
    exact nodup_insertSorted x _ (fun m => hx ((mem_sortStrings x xs).mp m)) (ih hxs)

theorem mem_distinctKeepLast (a : List Char) (l : List (List Char)) :
    a ∈ distinctKeepLast l ↔ a ∈ l := by
  induction l with
  | nil => simp [distinctKeepLast]
  | cons x xs ih =>
    by_cases h : x ∈ xs
    · simp only [distinctKeepLast, if_pos h, ih, List.mem_cons]
      constructor
      · exact Or.inr
      · rintro (he | hm)
        · exact he ▸ h
        · exact hm
    · simp only [distinctKeepLast, if_neg h, List.mem_cons, ih]

theorem nodup_distinctKeepLast (l : List (List Char)) : (distinctKeepLast l).Nodup := by
  induction l with
  | nil => simp [distinctKeepLast]
  | cons x xs ih =>
    by_cases h : x ∈ xs
    · simpa [distinctKeepLast, if_pos h] using ih
    · simp only [distinctKeepLast, if_neg h]
      exact List.nodup_cons.mpr ⟨fun m => h ((mem_distinctKeepLast x xs).mp m), ih⟩

/-- Claim C5: when every line beginning with the author marker parses, the
function returns without error a lexicographically sorted, duplicate-free
list with exactly the parsed identities as members; the empty log yields
the empty list without error. -/
theorem parse_svn_log_authors_spec :
    (∀ (l : List Char) (as : List (List Char)),
        ((pySplitOn '\n' l).filter (fun s => authorTag.isPrefixOf s)).mapM parse_author
            = Except.ok as →
          ∃ out, parse_svn_log_authors l = Except.ok out
            ∧ sortedLe out = true ∧ out.Nodup ∧ (∀ x, x ∈ out ↔ x ∈ as))
    ∧ parse_svn_log_authors [] = Except.ok [] := by
  refine ⟨?_, rfl⟩
  intro l as h
  refine ⟨sortStrings (distinctKeepLast as), ?_, sortedLe_sortStrings _,
    nodup_sortStrings _ (nodup_distinctKeepLast as), ?_⟩
  · simp only [parse_svn_log_authors, h]
  · intro x
    rw [mem_sortStrings, mem_distinctKeepLast]

/-- Witness for C5 on a log with a repeated and an out-of-order author. -/
theorem parse_svn_log_authors_spec_witness :
    ((pySplitOn '\n' (toL "<author>q</author>\n<author>a</author>\n<author>q</author>")).filter
        (fun s => authorTag.isPrefixOf s)).mapM parse_author
      = Except.ok [toL "q", toL "a", toL "q"]
    ∧ ∃ out,
        parse_svn_log_authors (toL "<author>q</author>\n<author>a</author>\n<author>q</author>")
          = Except.ok out
        ∧ sortedLe out = true ∧ out.Nodup
        ∧ (∀ x, x ∈ out ↔ x ∈ [toL "q", toL "a", toL "q"]) :=
  ⟨rfl, parse_svn_log_authors_spec.1 _ _ rfl⟩

theorem reFindall_scan (n : Nat) :
    ∀ l : List Char, l.length ≤ n →
      ((reFindallBrk l).map (fun m => (m.drop 1).take 1)).foldr (· ++ ·) [] = scanKeys l
      ∧ (reFindallBrk l = [] ↔ scanKeys l = []) := by
  induction n with
  | zero =>
    intro l hl
    have hnil : l = [] := List.length_eq_zero.mp (Nat.le_zero.mp hl)
    subst hnil
    exact ⟨rfl, ⟨fun _ => rfl, fun _ => rfl⟩⟩
  | succ n ih =>
    intro l hl
    cases l with
    | nil => exact ⟨rfl, ⟨fun _ => rfl, fun _ => rfl⟩⟩
    | cons a l1 =>
      cases l1 with
      | nil => exact ⟨rfl, ⟨fun _ => rfl, fun _ => rfl⟩⟩
      | cons b l2 =>
        cases l2 with
        | nil => exact ⟨rfl, ⟨fun _ => rfl, fun _ => rfl⟩⟩
        | cons c r =>
          by_cases h : a = '[' ∧ b ≠ '\n' ∧ c = ']'
          · have hr : r.length ≤ n := by
              simp only [List.length_cons] at hl
              omega
            obtain ⟨ih1, ih2⟩ := ih r hr
            constructor
            · simp only [reFindallBrk, scanKeys, if_pos h, List.map_cons, List.foldr_cons, ih1]
              rfl
            · simp [reFindallBrk, scanKeys, if_pos h]
          · have hr : (b :: c :: r).length ≤ n := by
              simp only [List.length_cons] at hl ⊢
              omega
            obtain ⟨ih1, ih2⟩ := ih (b :: c :: r) hr
            constructor
            · simp only [reFindallBrk, scanKeys, if_neg h]
              exact ih1
            · simp only [reFindallBrk, scanKeys, if_neg h]
              exact ih2

/-- Claim C6 counterexample: on `[[]]` the occurrences of the bracketed
pattern overlap, and the code returns only the first enclosed character
where the claim collects both; on a bracketed newline the code finds no
match at all (the regex dot excludes newlines) where the claim collects it. -/
theorem extract_keys_cex :
    extract_keys_from_prompt (toL "[[]]") = Except.ok (toL "[")
    ∧ allEnclosed (toL "[[]]") = toL "[]"
    ∧ toL "[" ≠ toL "[]"
    ∧ extract_keys_from_prompt ['[', '\n', ']'] = Except.error ()
    ∧ allEnclosed ['[', '\n', ']'] = ['\n'] :=
  ⟨rfl, rfl, by decide, rfl, rfl⟩

/-- Claim C6 (amended): `extract_keys_from_prompt` returns the concatenation
of the single non-newline characters found at bracketed occurrences by a
left-to-right non-overlapping scan (resuming past each match), and fails
with the FormatError exactly when that scan finds nothing. -/
theorem extract_keys_eq_scan :
    ∀ l : List Char,
      extract_keys_from_prompt l
        = if scanKeys l = [] then Except.error () else Except.ok (scanKeys l) := by
  intro l
  obtain ⟨h1, h2⟩ := reFindall_scan l.length l (le_refl _)
  simp only [extract_keys_from_prompt]
  by_cases h : reFindallBrk l = []
  · rw [if_pos h, if_pos (h2.mp h)]
  · rw [if_neg h, if_neg (fun hs => h (h2.mpr hs)), h1]

theorem promptLoop_eq_find (choices : List Char) (inputs : List (List Char)) :
    promptLoop choices inputs
      = (inputs.find? (fun i => acceptB choices (pyLower i))).map pyLower := by
  induction inputs with
  | nil => rfl
  | cons i rest ih =>
    simp only [promptLoop]
    by_cases h : acceptB choices (pyLower i) = true
    · rw [if_pos h,
        @List.find?_cons_of_pos (List Char) (fun j => acceptB choices (pyLower j)) i rest h]
      rfl
    · rw [if_neg h, ih,
        @List.find?_cons_of_neg (List Char) (fun j => acceptB choices (pyLower j)) i rest h]

/-- Claim C7 counterexample: with valid key `a`, the operator input line
of a space followed by `a` satisfies the claim's trimmed acceptance test,
yet the code rejects it (it never trims) and keeps waiting. -/
theorem prompt_menu_trim_cex :
    extract_keys_from_prompt (toL "Type [a] to abort") = Except.ok (toL "a")
    ∧ claimAccepts (toL "a") (toL " a") = true
    ∧ prompt_menu (toL "Type [a] to abort") [toL " a"] = Except.ok none :=
  ⟨rfl, rfl, rfl⟩

/-- Claim C7 (amended): for a prompt whose keys parse, `prompt_menu` returns
(lower-cased) the first input line whose lower-cased form — with no
trimming — is exactly one character belonging to the case-insensitive key
set, silently skipping every earlier line and raising no error. -/
theorem prompt_menu_returns_first_valid :
    ∀ (p : List Char) (inputs : List (List Char)) (ks : List Char),
      extract_keys_from_prompt p = Except.ok ks →
      prompt_menu p inputs
        = Except.ok ((inputs.find? (fun i => acceptB (pyLower ks) (pyLower i))).map pyLower) := by
  intro p inputs ks h
  simp only [prompt_menu, h]
  rw [promptLoop_eq_find]

/-- Witness for the amended C7: the first line is rejected and the second,
an upper-case valid key, is returned lower-cased. -/
theorem prompt_menu_returns_first_valid_witness :
    prompt_menu (toL "Type [a] to abort, [c] to continue") [toL "xx", toL "A"]
      = Except.ok (some (toL "a")) := by
  have h := prompt_menu_returns_first_valid (toL "Type [a] to abort, [c] to continue")
    [toL "xx", toL "A"] (toL "ac") rfl
  exact h.trans rfl
